import Mathlib

/-!
Verification development for the git-changes-view repository.

Python strings are modelled as `List Char`; Python `int` as `Int`;
`None`-able values as `Option`.  Each definition is a shallow embedding of
the function of the same name in the repository's source; comments point
to the source location.
-/

/-- Python `s.split(sep)` for a single-character separator
(used for `"\t"`, `"\n"`, `"/"` splits in the source). -/
def pySplitChar (sep : Char) : List Char → List (List Char)
  | [] => [[]]
  | c :: cs =>
    if c = sep then
      [] :: pySplitChar sep cs
    else
      match pySplitChar sep cs with
      | [] => [[c]]
      | seg :: more => (c :: seg) :: more

/-- Does `p` stand at the front of `s`?  (Substring match at position 0.) -/
def leadsWith : List Char → List Char → Bool
  | [], _ => true
  | _ :: _, [] => false
  | p :: ps, s :: ss => p = s && leadsWith ps ss

/-- Python `sep in s` (substring containment) for a string separator. -/
def containsSub (sep : List Char) : List Char → Bool
  | [] => sep.isEmpty
  | c :: cs => leadsWith sep (c :: cs) || containsSub sep cs

/-- `sep` occurs in `s` starting at index `i`. -/
def occursAt (sep s : List Char) (i : Nat) : Prop :=
  leadsWith sep (s.drop i) = true

instance (sep s : List Char) (i : Nat) : Decidable (occursAt sep s i) := by
  unfold occursAt; infer_instance

/-- Python `s.split(sep)` for a multi-character separator (the `" => "`
split in `parse_numstat`).  For an empty separator Python raises; here the
empty-separator branch is never taken by the embedding's callers. -/
def pySplit (sep : List Char) : List Char → List (List Char)
  | [] => [[]]
  | c :: cs =>
    if _h : sep ≠ [] ∧ leadsWith sep (c :: cs) = true then
      [] :: pySplit sep (List.drop sep.length (c :: cs))
    else
      match pySplit sep cs with
      | [] => [[c]]
      | seg :: more => (c :: seg) :: more
termination_by s => s.length
decreasing_by
  all_goals simp only [List.length_drop, List.length_cons]
  all_goals try omega
  have : sep.length ≠ 0 := by
    intro h0
    exact _h.1 (List.eq_nil_of_length_eq_zero h0)
  omega

/-- Python `s.replace(c, "")` for a one-character pattern: removes every
occurrence of the character (used for `{` / `}` stripping). -/
def pyRemoveChar (c : Char) (s : List Char) : List Char :=
  s.filter (fun x => x ≠ c)

/-- The characters Python `str.strip()` removes. -/
def isPyWs (c : Char) : Bool :=
  c = ' ' || c = '\t' || c = '\n' || c = '\r' || c = '\x0b' || c = '\x0c'

/-- Python `s.strip()`: drop leading and trailing whitespace. -/
def pyStrip (s : List Char) : List Char :=
  (((s.dropWhile isPyWs).reverse).dropWhile isPyWs).reverse

/-- Numeral value of a digit string. -/
def digitsVal (s : List Char) : Nat :=
  s.foldl (fun acc c => 10 * acc + (c.toNat - 48)) 0

/-- Python `int(s)`, modelled on the plain digit strings that
`git diff --numstat` emits (the full builtin also accepts a sign,
surrounding whitespace and underscores; those shapes never reach the
parser's call sites).  `none` models the `ValueError` exception. -/
def pyInt (s : List Char) : Option Int :=
  if s ≠ [] ∧ s.all Char.isDigit then some (digitsVal s) else none

/-- Python `str(n)` for an integer, and `Nat.toDigits` for the digits. -/
def intStr (i : Int) : List Char :=
  if i < 0 then '-' :: Nat.toDigits 10 (-i).toNat else Nat.toDigits 10 i.toNat

/-- Python `s.rjust(w)`: left-pad with spaces to width `w`. -/
def pyRjust (w : Nat) (s : List Char) : List Char :=
  List.replicate (w - s.length) ' ' ++ s

/- ---------------------------------------------------------------------
diff.py
--------------------------------------------------------------------- -/

/-- `FileChange` from diff.py (lines 15-32): one file's diff statistics.
`loc` is `None` until the enrichment step fills it in. -/
structure FileChange where
  path : List Char
  insertions : Int
  deletions : Int
  loc : Option Int := none
deriving DecidableEq, Repr

/-- The ` => ` rename separator. -/
def arrowSep : List Char := " => ".toList

/-- The rename normalization of `parse_numstat` (diff.py lines 74-80):
strip `{`/`}`, and if ` => ` remains take `split(" => ")[1]`.  When the
guard holds Python's `split` is guaranteed to have at least two segments,
so the `getD` default is unreachable. -/
def resolvePath (path : List Char) : List Char :=
  if containsSub arrowSep path then
    let stripped := pyRemoveChar '}' (pyRemoveChar '{' path)
    if containsSub arrowSep stripped then
      (pySplit arrowSep stripped).getD 1 []
    else
      stripped
  else
    path

/-- One iteration of the `for line in ...` loop of `parse_numstat`
(diff.py lines 67-81): `some []` when the line is skipped, `some [r]`
when a record is appended, `none` when `int()` raises. -/
def lineResult (line : List Char) : Option (List FileChange) :=
  if line = [] then some []
  else
    match pySplitChar '\t' line with
    | p0 :: p1 :: p2 :: _ =>
      match (if p0 = ['-'] then some 0 else pyInt p0),
            (if p1 = ['-'] then some 0 else pyInt p1) with
      | some ins, some dels => some [{ path := resolvePath p2, insertions := ins, deletions := dels }]
      | _, _ => none
    | _ => some []

/-- The whole loop of `parse_numstat` over the split lines. -/
def parseLines : List (List Char) → Option (List FileChange)
  | [] => some []
  | l :: ls =>
    match lineResult l, parseLines ls with
    | some r, some rest => some (r ++ rest)
    | _, _ => none

/-- `parse_numstat` (diff.py lines 56-82).  `none` models the `ValueError`
that an unparseable numeric field would raise. -/
def parse_numstat (output : List Char) : Option (List FileChange) :=
  if pyStrip output = [] then some []
  else parseLines (pySplitChar '\n' (pyStrip output))

/- ---------------------------------------------------------------------
cli.py / get_changes mode handling
--------------------------------------------------------------------- -/

/-- Mode selection of `main` (cli.py lines 55-60): `--since-last` is
checked first, `--uncommitted` in the `elif`. -/
def selectMode (since_last uncommitted : Bool) : List Char :=
  if since_last then "since-last".toList
  else if uncommitted then "uncommitted".toList
  else "default".toList

/-- The three comparisons `get_changes` can run (diff.py lines 99-108). -/
inductive Comparison where
  | workingTreeVsHead
  | headVsParent
  | mergeBaseVsHead
deriving DecidableEq, Repr

/-- Dispatch of `get_changes` (diff.py lines 99-108): `uncommitted` diffs
the working tree against HEAD, `since-last` diffs HEAD~1 against HEAD,
anything else diffs the merge base against HEAD. -/
def comparisonOf (mode : List Char) : Comparison :=
  if mode = "uncommitted".toList then .workingTreeVsHead
  else if mode = "since-last".toList then .headVsParent
  else .mergeBaseVsHead

/- ---------------------------------------------------------------------
tree.py
--------------------------------------------------------------------- -/

/-- `TreeNode` from tree.py (lines 12-21).  Python keeps `children` as an
insertion-ordered dict keyed by segment name; `build_tree` only ever
stores a child under its own `name`, so the dict is modelled as the
insertion-ordered list of child nodes, looked up by name. -/
inductive TreeNode where
  | mk (name : List Char) (is_file : Bool) (insertions : Int) (deletions : Int)
       (loc : Option Int) (children : List TreeNode)
deriving Repr

def TreeNode.name : TreeNode → List Char
  | .mk n _ _ _ _ _ => n

def TreeNode.is_file : TreeNode → Bool
  | .mk _ f _ _ _ _ => f

def TreeNode.insertions : TreeNode → Int
  | .mk _ _ i _ _ _ => i

def TreeNode.deletions : TreeNode → Int
  | .mk _ _ _ d _ _ => d

def TreeNode.loc : TreeNode → Option Int
  | .mk _ _ _ _ l _ => l

def TreeNode.children : TreeNode → List TreeNode
  | .mk _ _ _ _ _ cs => cs

def TreeNode.withChildren : TreeNode → List TreeNode → TreeNode
  | .mk n f i d l _, cs => .mk n f i d l cs

/-- Python dict lookup `node.children[part]` / `part in node.children`:
first (and, by construction, only) child stored under that name. -/
def findChild : List TreeNode → List Char → Option TreeNode
  | [], _ => none
  | c :: cs, nm => if c.name = nm then some c else findChild cs nm

/-- Python dict assignment `node.children[part] = child`: replace the
first entry with that key, or append a new entry. -/
def setChild : List TreeNode → List Char → TreeNode → List TreeNode
  | [], _, c => [c]
  | c0 :: cs, nm, c => if c0.name = nm then c :: cs else c0 :: setChild cs nm c

/-- The inner `for i, part in enumerate(parts)` walk of `build_tree`
(tree.py lines 32-43), rebuilt functionally: missing nodes are created
(stats only on the final, file segment), existing nodes are reused
untouched. -/
def insertPath (node : TreeNode) (parts : List (List Char)) (ins dels : Int)
    (loc : Option Int) : TreeNode :=
  match parts with
  | [] => node
  | part :: rest =>
    let is_file := rest = ([] : List (List Char))
    let child :=
      match findChild node.children part with
      | some c => c
      | none =>
        TreeNode.mk part is_file (if is_file then ins else 0)
          (if is_file then dels else 0) (if is_file then loc else none) []
    node.withChildren (setChild node.children part (insertPath child rest ins dels loc))

/-- One iteration of the outer `for change in changes` loop of
`build_tree` (tree.py lines 28-43). -/
def buildStep (root : TreeNode) (change : FileChange) : TreeNode :=
  insertPath root (pySplitChar '/' change.path) change.insertions change.deletions change.loc

/-- `build_tree` (tree.py lines 24-45). -/
def build_tree (changes : List FileChange) : TreeNode :=
  changes.foldl buildStep (TreeNode.mk ".".toList false 0 0 none [])

/-- Walk a segment chain through the tree. -/
def nodeAt (node : TreeNode) : List (List Char) → Option TreeNode
  | [] => some node
  | p :: ps =>
    match findChild node.children p with
    | some c => nodeAt c ps
    | none => none

/-- The file flag and stats stored at the end of a segment chain. -/
def statsAt (node : TreeNode) (parts : List (List Char)) :
    Option (Bool × Int × Int × Option Int) :=
  (nodeAt node parts).map (fun n => (n.is_file, n.insertions, n.deletions, n.loc))

/-- Python code-point string comparison `a <= b` (case-sensitive). -/
def strLeb : List Char → List Char → Bool
  | [], _ => true
  | _ :: _, [] => false
  | a :: as, b :: bs => if a < b then true else if a = b then strLeb as bs else false

/-- The sort key comparison of `_collect_lines` (tree.py line 86):
lexicographic on the pair `(is_file, name)` with `False < True`. -/
def childLeb (a b : TreeNode) : Bool :=
  if a.is_file = b.is_file then strLeb a.name b.name else b.is_file

def childLe (a b : TreeNode) : Prop :=
  childLeb a b = true

instance : DecidableRel childLe :=
  fun a b => inferInstanceAs (Decidable (childLeb a b = true))

/-- `sorted(node.children.values(), key=lambda n: (n.is_file, n.name))`
(tree.py line 86); insertion sort is, like Python's sort, stable. -/
def sortChildren (cs : List TreeNode) : List TreeNode :=
  List.insertionSort childLe cs

/-- `_TreeLine` from tree.py (lines 73-78). -/
structure TreeLine where
  text : List Char
  stats : Option (Option Int × Int × Int) := none
deriving DecidableEq, Repr

def cornerConnector : List Char := "└── ".toList

def branchConnector : List Char := "├── ".toList

mutual

/-- `_collect_lines` (tree.py lines 81-102). -/
def collectLines (node : TreeNode) (pre : List Char) : List TreeLine :=
  collectSorted (sortChildren node.children) pre
termination_by sizeOf node
decreasing_by
  have hperm := List.perm_insertionSort childLe node.children
  have hsz := hperm.sizeOf_eq_sizeOf
  cases node with
  | mk n f i d l cs => simp only [TreeNode.children] at hsz ⊢; simp [sortChildren] at *; omega

/-- The `for i, child in enumerate(children)` loop body of
`_collect_lines`: the head of `cs` is the current child, `is_last` holds
exactly when no sibling follows. -/
def collectSorted (cs : List TreeNode) (pre : List Char) : List TreeLine :=
  match cs with
  | [] => []
  | child :: rest =>
    let is_last := rest.isEmpty
    let connector := if is_last then cornerConnector else branchConnector
    (if child.is_file then
      [{ text := pre ++ connector ++ child.name,
         stats := some (child.loc, child.insertions, child.deletions) }]
    else
      { text := pre ++ connector ++ child.name ++ ['/'] } ::
        collectLines child (pre ++ (if is_last then "    ".toList else "│   ".toList)))
    ++ collectSorted rest pre
termination_by sizeOf cs
decreasing_by
  all_goals simp
  all_goals omega

end

/-- `str(loc) if loc is not None else "-"` (tree.py line 58). -/
def locStr (loc : Option Int) : List Char :=
  match loc with
  | some v => intStr v
  | none => ['-']

def greenCode : List Char := "\x1b[32m".toList

def redCode : List Char := "\x1b[31m".toList

def resetCode : List Char := "\x1b[0m".toList

/-- `format_stats_aligned` (tree.py lines 48-70; output.py lines 11-33 is
the identical duplicate). -/
def format_stats_aligned (loc : Option Int) (ins dels : Int)
    (loc_width ins_width dels_width : Nat) (use_color : Bool) : List Char :=
  let loc_padded := pyRjust loc_width (locStr loc)
  let ins_padded := pyRjust ins_width (intStr ins)
  let dels_padded := pyRjust dels_width (intStr dels)
  if use_color then
    loc_padded ++ "  ".toList ++ greenCode ++ '+' :: ins_padded ++ resetCode
      ++ ' ' :: redCode ++ '-' :: dels_padded ++ resetCode
  else
    loc_padded ++ "  ".toList ++ '+' :: ins_padded ++ ' ' :: '-' :: dels_padded

/-- One step of the width loop of `render_tree` (tree.py lines 134-140):
lines without stats are skipped, otherwise each column maximum grows. -/
def widthStep (w : Nat × Nat × Nat) (line : TreeLine) : Nat × Nat × Nat :=
  match line.stats with
  | none => w
  | some (loc, ins, dels) =>
    (max w.1 (locStr loc).length,
     max w.2.1 (intStr ins).length,
     max w.2.2 (intStr dels).length)

/-- The width computation of `render_tree` (tree.py lines 129-140):
fold `max` over the stats-bearing lines, starting from 1 in each column. -/
def computeWidths (lines : List TreeLine) : Nat × Nat × Nat :=
  lines.foldl widthStep (1, 1, 1)

/-- `render_tree` (tree.py lines 105-155).  The unused `prefix` parameter
of the source is dropped. -/
def render_tree (node : TreeNode) (use_color : Bool) : List (List Char) :=
  let tree_lines := collectLines node []
  if tree_lines = [] then []
  else
    let statLines := tree_lines.filter (fun l => l.stats.isSome)
    let max_text_width :=
      if statLines = [] then 0
      else (statLines.map (fun l => l.text.length)).foldl max 0
    let w := computeWidths tree_lines
    tree_lines.map (fun line =>
      match line.stats with
      | none => line.text
      | some (loc, ins, dels) =>
        line.text ++ List.replicate (max_text_width - line.text.length) ' '
          ++ "  ".toList
          ++ format_stats_aligned loc ins dels w.1 w.2.1 w.2.2 use_color)

/- ---------------------------------------------------------------------
output.py
--------------------------------------------------------------------- -/

/-- JSON values, for the dict `to_json` builds (`json.dumps` serializes
Python `None` as an explicit `null`, dicts as objects in insertion
order). -/
inductive JValue where
  | null
  | num (n : Int)
  | str (s : List Char)
  | arr (elems : List JValue)
  | obj (fields : List (List Char × JValue))
deriving Repr

/-- Key lookup in an object's field list. -/
def lookupKV : List (List Char × JValue) → List Char → Option JValue
  | [], _ => none
  | (k, v) :: kvs, key => if k = key then some v else lookupKV kvs key

def jGet (j : JValue) (key : List Char) : Option JValue :=
  match j with
  | .obj kvs => lookupKV kvs key
  | _ => none

/-- The per-file dict of `to_json` (output.py lines 95-100). -/
def fileJson (c : FileChange) : JValue :=
  .obj [("path".toList, .str c.path),
        ("loc".toList, match c.loc with | none => .null | some v => .num v),
        ("insertions".toList, .num c.insertions),
        ("deletions".toList, .num c.deletions)]

/-- `to_json` (output.py lines 78-114).  `if base_ref:` is Python
truthiness: `None` and the empty string both skip the `base` key. -/
def to_json (changes : List FileChange) (mode : List Char)
    (base_ref : Option (List Char)) : JValue :=
  let total_ins := (changes.map (fun c => c.insertions)).sum
  let total_dels := (changes.map (fun c => c.deletions)).sum
  let fields :=
    [("mode".toList, JValue.str mode),
     ("files".toList, JValue.arr (changes.map fileJson)),
     ("summary".toList, JValue.obj
       [("total_insertions".toList, .num total_ins),
        ("total_deletions".toList, .num total_dels),
        ("net".toList, .num (total_ins - total_dels)),
        ("file_count".toList, .num changes.length)])]
  match base_ref with
  | some s => if s = [] then .obj fields else .obj (fields ++ [("base".toList, .str s)])
  | none => .obj fields

/- ---------------------------------------------------------------------
Claim-side auxiliary definitions
--------------------------------------------------------------------- -/

/-- State machine that removes ANSI escape sequences: on `ESC` skip until
the terminating `m` of the SGR sequence, otherwise copy.  `inEsc` is the
skipping state. -/
def stripAnsiGo : Bool → List Char → List Char
  | _, [] => []
  | false, c :: cs => if c = '\x1b' then stripAnsiGo true cs else c :: stripAnsiGo false cs
  | true, c :: cs => if c = 'm' then stripAnsiGo false cs else stripAnsiGo true cs

/-- Strip ANSI SGR escape sequences from a rendered string. -/
def stripAnsi (s : List Char) : List Char :=
  stripAnsiGo false s

/-- The lines one child of `_collect_lines` contributes: its own
connector-prefixed line, and for a directory the recursively collected
sub-lines. -/
def childBlock (child : TreeNode) (pre : List Char) (is_last : Bool) : List TreeLine :=
  let connector := if is_last then cornerConnector else branchConnector
  if child.is_file then
    [{ text := pre ++ connector ++ child.name,
       stats := some (child.loc, child.insertions, child.deletions) }]
  else
    { text := pre ++ connector ++ child.name ++ ['/'] } ::
      collectLines child (pre ++ (if is_last then "    ".toList else "│   ".toList))

/-- The `files` array of a JSON document. -/
def jFiles (doc : JValue) : List JValue :=
  match jGet doc ("files".toList) with
  | some (.arr fs) => fs
  | _ => []

/-- The `insertions` number carried by one entry of the `files` array. -/
def fileIns (f : JValue) : Int :=
  match jGet f ("insertions".toList) with
  | some (.num n) => n
  | _ => 0

/-- The `deletions` number carried by one entry of the `files` array. -/
def fileDels (f : JValue) : Int :=
  match jGet f ("deletions".toList) with
  | some (.num n) => n
  | _ => 0

/-- Largest element of a list of naturals (`0` when empty). -/
def listMax (l : List Nat) : Nat :=
  l.foldr max 0

/-- Is the first segment chain an initial run of the second? -/
def chainLeadsB : List (List Char) → List (List Char) → Bool
  | [], _ => true
  | _ :: _, [] => false
  | a :: as, b :: bs => a = b && chainLeadsB as bs

/-- Concrete tree for the C4 instance: three files with loc values
`None`, `7`, `123`. -/
def c4Node : TreeNode :=
  TreeNode.mk (".".toList) false 0 0 none
    [TreeNode.mk ("a".toList) true 1 1 none [],
     TreeNode.mk ("b".toList) true 2 2 (some 7) [],
     TreeNode.mk ("c".toList) true 3 3 (some 123) []]

/-- Concrete tree for the C3 witness: one file and one directory, listed
file-first so that the sort has something to reorder. -/
def c3Node : TreeNode :=
  TreeNode.mk (".".toList) false 0 0 none
    [TreeNode.mk ("b.txt".toList) true 1 2 (some 5) [],
     TreeNode.mk ("a".toList) false 0 0 none []]

/-- Concrete change list for the C10 counterexample: an earlier longer
path creates `a/b` as a directory node, then two records share the path
`a/b`. -/
def c10ex : List FileChange :=
  [FileChange.mk ("a/b/c".toList) 1 1 none,
   FileChange.mk ("a/b".toList) 5 2 (some 9),
   FileChange.mk ("a/b".toList) 7 7 none]

/- ---------------------------------------------------------------------
Theorems
--------------------------------------------------------------------- -/

/-- Claim C9 counterexample: with both flags set, the selected mode does
not run the uncommitted (working tree vs HEAD) comparison. -/
theorem c9_counterexample :
    comparisonOf (selectMode true true) ≠ Comparison.workingTreeVsHead := by
  decide

/-- Claim C9 (amended): when both `--since-last` and `--uncommitted` are
given, `--since-last` wins: the selected mode is `since-last` and the
comparison run is HEAD~1 vs HEAD. -/
theorem c9_since_last_wins :
    selectMode true true = "since-last".toList ∧
      comparisonOf (selectMode true true) = Comparison.headVsParent := by
  decide

/-- Claim C8 counterexample: supplying the empty string as base reference
omits the `base` key (Python `if base_ref:` treats `""` as false), while
the claim requires it to be present. -/
theorem c8_counterexample :
    jGet (to_json [] ("default".toList) (some [])) ("base".toList) = none := by
  rfl

/-- Claim C8 (amended): the JSON document contains the top-level `base`
key exactly when a non-empty base-reference string was supplied; it is
omitted when the base reference is absent or the empty string. -/
theorem c8_base_key (changes : List FileChange) (mode : List Char)
    (b : Option (List Char)) :
    (∀ s, b = some s → s ≠ [] →
        jGet (to_json changes mode b) ("base".toList) = some (.str s)) ∧
      (b = none ∨ b = some [] →
        jGet (to_json changes mode b) ("base".toList) = none) := by
  constructor
  · intro s hb hs
    subst hb
    simp only [to_json, if_neg hs]
    simp [jGet, lookupKV]
  · rintro (rfl | rfl) <;> simp [to_json, jGet, lookupKV]

/-- Witness for `c8_base_key` at a concrete non-empty base reference. -/
theorem c8_base_key_witness :
    jGet (to_json [] ("default".toList) (some ("HEAD".toList))) ("base".toList)
      = some (.str ("HEAD".toList)) :=
  (c8_base_key [] ("default".toList) (some ("HEAD".toList))).1 _ rfl (by decide)

/-- Claim C2: a numstat line with at least 3 tab-separated fields whose
first two fields are each numeric or the binary marker `-` yields exactly
one record, whose insertions/deletions are the numeral values of the
fields, with `-` normalized to 0. -/
theorem c2_numeric_fields (line p0 p1 p2 : List Char) (ps : List (List Char))
    (hsplit : pySplitChar '\t' line = p0 :: p1 :: p2 :: ps)
    (h0 : p0 = ['-'] ∨ (p0 ≠ [] ∧ p0.all Char.isDigit = true))
    (h1 : p1 = ['-'] ∨ (p1 ≠ [] ∧ p1.all Char.isDigit = true)) :
    lineResult line = some [FileChange.mk (resolvePath p2)
      (if p0 = ['-'] then 0 else (digitsVal p0 : Int))
      (if p1 = ['-'] then 0 else (digitsVal p1 : Int)) none] := by
  have hne : line ≠ [] := by
    intro h
    rw [h] at hsplit
    simp [pySplitChar] at hsplit
  have hv0 : (if p0 = ['-'] then some 0 else pyInt p0)
      = some (if p0 = ['-'] then 0 else (digitsVal p0 : Int)) := by
    rcases h0 with rfl | ⟨h0a, h0b⟩
    · simp
    · have hne0 : p0 ≠ ['-'] := by
        rintro rfl
        simp [List.all_cons] at h0b
      simp [hne0, pyInt, h0a, h0b]
  have hv1 : (if p1 = ['-'] then some 0 else pyInt p1)
      = some (if p1 = ['-'] then 0 else (digitsVal p1 : Int)) := by
    rcases h1 with rfl | ⟨h1a, h1b⟩
    · simp
    · have hne1 : p1 ≠ ['-'] := by
        rintro rfl
        simp [List.all_cons] at h1b
      simp [hne1, pyInt, h1a, h1b]
  unfold lineResult
  rw [if_neg hne, hsplit]
  simp only [hv0, hv1]

/-- Witness for `c2_numeric_fields` on the line `10<TAB>2<TAB>src/a.py`. -/
theorem c2_numeric_fields_witness :
    lineResult ("10\t2\tsrc/a.py".toList)
      = some [FileChange.mk (resolvePath ("src/a.py".toList))
          (if ("10".toList : List Char) = ['-'] then 0
            else (digitsVal ("10".toList) : Int))
          (if ("2".toList : List Char) = ['-'] then 0
            else (digitsVal ("2".toList) : Int)) none] :=
  c2_numeric_fields ("10\t2\tsrc/a.py".toList) ("10".toList) ("2".toList)
    ("src/a.py".toList) [] (by decide) (Or.inr (by decide)) (Or.inr (by decide))

/-- A line with fewer than 3 tab-separated fields contributes nothing and
raises nothing. -/
theorem lineResult_short (L : List Char)
    (hlen : (pySplitChar '\t' L).length < 3) : lineResult L = some [] := by
  by_cases hL : L = []
  · simp [lineResult, hL]
  · unfold lineResult
    rw [if_neg hL]
    rcases hx : pySplitChar '\t' L with _ | ⟨a, _ | ⟨b, _ | ⟨c, rest⟩⟩⟩
    · rfl
    · rfl
    · rfl
    · rw [hx] at hlen
      simp at hlen
      omega

/-- Dropping a contributing-nothing line from the loop leaves every other
line processed exactly as before. -/
theorem parseLines_drop (pre post : List (List Char)) (L : List Char)
    (h : lineResult L = some []) :
    parseLines (pre ++ L :: post) = parseLines (pre ++ post) := by
  induction pre with
  | nil =>
    simp only [List.nil_append, parseLines, h]
    cases parseLines post <;> simp
  | cons x xs ih =>
    simp only [List.cons_append, parseLines, List.append_eq, ih]

/-- Claim C7: empty or whitespace-only input yields the empty sequence,
and any line with fewer than 3 tab-separated fields is silently dropped
from the loop (no record, no error) while the remaining lines are
processed unchanged. -/
theorem c7_malformed_lines :
    (∀ s : List Char, s.all isPyWs = true → parse_numstat s = some []) ∧
      (∀ pre post (L : List Char), (pySplitChar '\t' L).length < 3 →
        parseLines (pre ++ L :: post) = parseLines (pre ++ post)) := by
  constructor
  · intro s hs
    have hd : s.dropWhile isPyWs = [] := by
      rw [List.dropWhile_eq_nil_iff]
      intro x hx
      exact List.all_eq_true.mp hs x hx
    have : pyStrip s = [] := by
      simp [pyStrip, hd]
    simp [parse_numstat, this]
  · intro pre post L hlen
    exact parseLines_drop pre post L (lineResult_short L hlen)

/-- Witness for `c7_malformed_lines`: whitespace-only input, and dropping
the 2-field line `x<TAB>y` between two well-formed lines. -/
theorem c7_malformed_lines_witness :
    parse_numstat (" \n\t ".toList) = some [] ∧
      parseLines (["1\t2\ta".toList] ++ "x\ty".toList :: ["3\t4\tb".toList])
        = parseLines (["1\t2\ta".toList] ++ ["3\t4\tb".toList]) :=
  ⟨c7_malformed_lines.1 (" \n\t ".toList) (by decide),
   c7_malformed_lines.2 ["1\t2\ta".toList] ["3\t4\tb".toList] ("x\ty".toList)
     (by decide)⟩

/-- `Nat.digitChar` never produces the escape character. -/
theorem digitChar_ne_esc (k : Nat) : Nat.digitChar k ≠ '\x1b' := by
  by_cases hk : k < 16
  · interval_cases k <;> decide
  · have h0 : ¬ k = 0 := by omega
    have h1 : ¬ k = 1 := by omega
    have h2 : ¬ k = 2 := by omega
    have h3 : ¬ k = 3 := by omega
    have h4 : ¬ k = 4 := by omega
    have h5 : ¬ k = 5 := by omega
    have h6 : ¬ k = 6 := by omega
    have h7 : ¬ k = 7 := by omega
    have h8 : ¬ k = 8 := by omega
    have h9 : ¬ k = 9 := by omega
    have h10 : ¬ k = 10 := by omega
    have h11 : ¬ k = 11 := by omega
    have h12 : ¬ k = 12 := by omega
    have h13 : ¬ k = 13 := by omega
    have h14 : ¬ k = 14 := by omega
    have h15 : ¬ k = 15 := by omega
    simp only [Nat.digitChar, h0, h1, h2, h3, h4, h5, h6, h7, h8, h9, h10, h11,
      h12, h13, h14, h15, if_false]
    decide

/-- `Nat.toDigitsCore` only ever prepends digit characters. -/
theorem esc_not_mem_toDigitsCore (f : Nat) :
    ∀ (n : Nat) (acc : List Char), '\x1b' ∉ acc →
      '\x1b' ∉ Nat.toDigitsCore 10 f n acc := by
  induction f with
  | zero =>
    intro n acc hacc
    simpa [Nat.toDigitsCore] using hacc
  | succ f ih =>
    intro n acc hacc
    have hcons : '\x1b' ∉ Nat.digitChar (n % 10) :: acc := by
      intro hmem
      rcases List.mem_cons.mp hmem with h1 | h2
      · exact digitChar_ne_esc _ h1.symm
      · exact hacc h2
    unfold Nat.toDigitsCore
    by_cases h : n / 10 = 0
    · simpa [h] using hcons
    · simpa [h] using ih (n / 10) (Nat.digitChar (n % 10) :: acc) hcons

/-- The decimal rendering of an integer contains no escape character. -/
theorem esc_not_mem_intStr (i : Int) : '\x1b' ∉ intStr i := by
  unfold intStr
  by_cases h : i < 0
  · simp only [h, if_true]
    intro hmem
    rcases List.mem_cons.mp hmem with h1 | h2
    · exact absurd h1 (by decide)
    · exact esc_not_mem_toDigitsCore _ _ _ (by simp) h2
  · simp only [h, if_false]
    exact esc_not_mem_toDigitsCore _ _ _ (by simp)

/-- A right-aligned numeric or `-` column contains no escape character. -/
theorem esc_not_mem_rjust_loc (w : Nat) (loc : Option Int) :
    '\x1b' ∉ pyRjust w (locStr loc) := by
  intro hmem
  rcases List.mem_append.mp hmem with h1 | h2
  · have := List.eq_of_mem_replicate h1
    exact absurd this (by decide)
  · cases loc with
    | none => exact absurd h2 (by decide)
    | some v => exact esc_not_mem_intStr v h2

/-- A right-aligned integer column contains no escape character. -/
theorem esc_not_mem_rjust_int (w : Nat) (i : Int) :
    '\x1b' ∉ pyRjust w (intStr i) := by
  intro hmem
  rcases List.mem_append.mp hmem with h1 | h2
  · have := List.eq_of_mem_replicate h1
    exact absurd this (by decide)
  · exact esc_not_mem_intStr i h2

/-- The stripper copies an escape-free block unchanged. -/
theorem stripGo_noesc (xs : List Char) (ys : List Char) (h : '\x1b' ∉ xs) :
    stripAnsiGo false (xs ++ ys) = xs ++ stripAnsiGo false ys := by
  induction xs with
  | nil => rfl
  | cons c cs ih =>
    have hc : c ≠ '\x1b' := fun he => h (he ▸ List.mem_cons_self c cs)
    have hcs : '\x1b' ∉ cs := fun hm => h (List.mem_cons_of_mem c hm)
    simp [stripAnsiGo, hc, ih hcs]

theorem stripGo_cons (c : Char) (ys : List Char) (h : c ≠ '\x1b') :
    stripAnsiGo false (c :: ys) = c :: stripAnsiGo false ys := by
  simp [stripAnsiGo, h]

theorem stripGo_green (ys : List Char) :
    stripAnsiGo false (greenCode ++ ys) = stripAnsiGo false ys := rfl

theorem stripGo_red (ys : List Char) :
    stripAnsiGo false (redCode ++ ys) = stripAnsiGo false ys := rfl

theorem stripGo_reset (ys : List Char) :
    stripAnsiGo false (resetCode ++ ys) = stripAnsiGo false ys := rfl

/-- The colored token of `format_stats_aligned`, stripped, is the plain
token, for arbitrary escape-free padded columns. -/
theorem strip_colored_form (A B C : List Char) (hA : '\x1b' ∉ A)
    (hB : '\x1b' ∉ B) (hC : '\x1b' ∉ C) :
    stripAnsiGo false (A ++ "  ".toList ++ greenCode ++ '+' :: B ++ resetCode
        ++ ' ' :: redCode ++ '-' :: C ++ resetCode)
      = A ++ "  ".toList ++ '+' :: B ++ ' ' :: '-' :: C := by
  simp only [List.append_assoc, List.cons_append]
  rw [stripGo_noesc _ _ hA,
    stripGo_noesc _ _ (by decide : '\x1b' ∉ "  ".toList),
    stripGo_green,
    stripGo_cons _ _ (by decide),
    stripGo_noesc _ _ hB,
    stripGo_reset,
    stripGo_cons _ _ (by decide),
    stripGo_red,
    stripGo_cons _ _ (by decide),
    stripGo_noesc _ _ hC]
  rw [show stripAnsiGo false resetCode = [] from rfl, List.append_nil]

/-- Claim C6: stripping the ANSI escape sequences from the colored output
of the column-aligned formatter gives exactly the plain output. -/
theorem c6_strip_color (loc : Option Int) (ins dels : Int) (lw iw dw : Nat) :
    stripAnsi (format_stats_aligned loc ins dels lw iw dw true)
      = format_stats_aligned loc ins dels lw iw dw false := by
  have h1 : format_stats_aligned loc ins dels lw iw dw true
      = pyRjust lw (locStr loc) ++ "  ".toList ++ greenCode
        ++ '+' :: pyRjust iw (intStr ins) ++ resetCode
        ++ ' ' :: redCode ++ '-' :: pyRjust dw (intStr dels) ++ resetCode := rfl
  have h2 : format_stats_aligned loc ins dels lw iw dw false
      = pyRjust lw (locStr loc) ++ "  ".toList
        ++ '+' :: pyRjust iw (intStr ins)
        ++ ' ' :: '-' :: pyRjust dw (intStr dels) := rfl
  rw [stripAnsi, h1, h2]
  exact strip_colored_form _ _ _ (esc_not_mem_rjust_loc lw loc)
    (esc_not_mem_rjust_int iw ins) (esc_not_mem_rjust_int dw dels)

/-- Claim C5: in every JSON document produced by `to_json`, the summary
fields are exactly the sums / difference / count over the `files` array
emitted in the same document, and each file entry's `loc` key is present,
holding an explicit `null` exactly when the record's loc is absent. -/
theorem c5_json_summary (changes : List FileChange) (mode : List Char)
    (b : Option (List Char)) :
    jGet (to_json changes mode b) ("files".toList)
        = some (.arr (jFiles (to_json changes mode b))) ∧
      jGet (to_json changes mode b) ("summary".toList)
        = some (.obj
            [("total_insertions".toList,
              .num ((jFiles (to_json changes mode b)).map fileIns).sum),
             ("total_deletions".toList,
              .num ((jFiles (to_json changes mode b)).map fileDels).sum),
             ("net".toList,
              .num (((jFiles (to_json changes mode b)).map fileIns).sum
                - ((jFiles (to_json changes mode b)).map fileDels).sum)),
             ("file_count".toList,
              .num ((jFiles (to_json changes mode b)).length))]) ∧
      (jFiles (to_json changes mode b)).map (fun f => jGet f ("loc".toList))
        = changes.map (fun c =>
            some (match c.loc with | none => JValue.null | some v => JValue.num v)) := by
  have hfiles : jGet (to_json changes mode b) ("files".toList)
      = some (.arr (changes.map fileJson)) := by
    unfold to_json
    cases b with
    | none => rfl
    | some s =>
      by_cases hs : s = []
      · simp only [hs, if_pos rfl]
        rfl
      · simp only [if_neg hs]
        rfl
  have hj : jFiles (to_json changes mode b) = changes.map fileJson := by
    unfold jFiles
    rw [hfiles]
  have hins : (jFiles (to_json changes mode b)).map fileIns
      = changes.map (fun c => c.insertions) := by
    rw [hj, List.map_map]
    rfl
  have hdels : (jFiles (to_json changes mode b)).map fileDels
      = changes.map (fun c => c.deletions) := by
    rw [hj, List.map_map]
    rfl
  refine ⟨by rw [hfiles, hj], ?_, ?_⟩
  · have hsum : jGet (to_json changes mode b) ("summary".toList)
        = some (.obj
            [("total_insertions".toList, .num (changes.map (fun c => c.insertions)).sum),
             ("total_deletions".toList, .num (changes.map (fun c => c.deletions)).sum),
             ("net".toList, .num ((changes.map (fun c => c.insertions)).sum
               - (changes.map (fun c => c.deletions)).sum)),
             ("file_count".toList, .num changes.length)]) := by
      unfold to_json
      cases b with
      | none => rfl
      | some s =>
        by_cases hs : s = []
        · simp only [hs, if_pos rfl]
          rfl
        · simp only [if_neg hs]
          rfl
    rw [hsum, hins, hdels, hj, List.length_map]
  · rw [hj, List.map_map]
    rfl

/-- The width fold of `render_tree`, for an arbitrary starting triple:
each component is the start value maxed with the largest formatted length
among the stats-bearing lines. -/
theorem widths_aux (lines : List TreeLine) : ∀ a b c : Nat,
    List.foldl widthStep (a, b, c) lines
      = (max a (listMax ((lines.filterMap TreeLine.stats).map (fun s => (locStr s.1).length))),
         max b (listMax ((lines.filterMap TreeLine.stats).map (fun s => (intStr s.2.1).length))),
         max c (listMax ((lines.filterMap TreeLine.stats).map (fun s => (intStr s.2.2).length)))) := by
  induction lines with
  | nil =>
    intro a b c
    simp [listMax]
  | cons l ls ih =>
    intro a b c
    cases hs : l.stats with
    | none =>
      simp [List.foldl_cons, widthStep, hs, List.filterMap_cons, ih]
    | some s =>
      obtain ⟨loc, ins, dels⟩ := s
      simp [List.foldl_cons, widthStep, hs, List.filterMap_cons, ih, listMax, Nat.max_assoc]

/-- Claim C4: each numeric column width equals the maximum formatted
length across the rows rendered together (absent loc formatting as `-`),
floored at 1; and on loc values `[None, 7, 123]` the loc column width is
3 with the absent row rendering a right-aligned `  -`. -/
theorem c4_column_widths :
    (∀ lines : List TreeLine, computeWidths lines
        = (max 1 (listMax ((lines.filterMap TreeLine.stats).map (fun s => (locStr s.1).length))),
           max 1 (listMax ((lines.filterMap TreeLine.stats).map (fun s => (intStr s.2.1).length))),
           max 1 (listMax ((lines.filterMap TreeLine.stats).map (fun s => (intStr s.2.2).length))))) ∧
      render_tree c4Node false
        = ["├── a    -  +1 -1".toList,
           "├── b    7  +2 -2".toList,
           "└── c  123  +3 -3".toList] := by
  constructor
  · intro lines
    exact widths_aux lines 1 1 1
  · have hcl : collectLines c4Node [] =
        [TreeLine.mk ("├── a".toList) (some (none, 1, 1)),
         TreeLine.mk ("├── b".toList) (some (some 7, 2, 2)),
         TreeLine.mk ("└── c".toList) (some (some 123, 3, 3))] := by
      simp [collectLines, collectSorted, sortChildren, c4Node, List.insertionSort,
        List.orderedInsert, childLe, childLeb, strLeb, TreeNode.is_file, TreeNode.name,
        TreeNode.loc, TreeNode.insertions, TreeNode.deletions, TreeNode.children,
        cornerConnector, branchConnector]
    rw [render_tree, hcl]
    rfl

/-- A string stands at its own front. -/
theorem leadsWith_append (p ys : List Char) : leadsWith p (p ++ ys) = true := by
  induction p with
  | nil => rfl
  | cons x xs ih => simp [leadsWith, ih]

/-- A string containing `sep` in the middle contains it. -/
theorem containsSub_middle (sep a b : List Char) :
    containsSub sep (a ++ sep ++ b) = true := by
  induction a with
  | nil =>
    cases hsep : sep with
    | nil => cases b <;> simp [containsSub, List.isEmpty, leadsWith]
    | cons s ss =>
      simp only [List.nil_append]
      rw [List.cons_append]
      simp only [containsSub, Bool.or_eq_true]
      left
      rw [← List.cons_append, ← hsep]
      exact leadsWith_append sep b
  | cons x a' ih =>
    simp only [List.cons_append, containsSub, Bool.or_eq_true]
    right
    simpa [List.append_assoc] using ih

/-- Splitting on a separator the string does not contain yields the
string as the single segment. -/
theorem pySplit_of_not_contains (sep s : List Char)
    (h : containsSub sep s = false) : pySplit sep s = [s] := by
  induction s with
  | nil => simp [pySplit]
  | cons c cs ih =>
    have hparts := h
    simp only [containsSub, Bool.or_eq_false_iff] at hparts
    rw [pySplit]
    simp only [hparts.1, Bool.false_eq_true, and_false, dite_false, ih hparts.2]

/-- When the first separator occurrence is the explicit middle one, the
split peels off the prefix as its first segment. -/
theorem pySplit_append (sep a b : List Char) (hsep : sep ≠ [])
    (H : ∀ i, i < a.length → ¬ occursAt sep (a ++ sep ++ b) i) :
    pySplit sep (a ++ sep ++ b) = a :: pySplit sep b := by
  induction a with
  | nil =>
    cases hsep' : sep with
    | nil => exact absurd hsep' hsep
    | cons s ss =>
      simp only [List.nil_append]
      rw [List.cons_append, pySplit]
      have hlw : leadsWith (s :: ss) (s :: (ss ++ b)) = true := by
        rw [← List.cons_append]
        exact leadsWith_append _ _
      rw [dif_pos ⟨List.cons_ne_nil s ss, hlw⟩, ← List.cons_append, List.drop_left]
  | cons x a' ih =>
    have h0 : leadsWith sep (x :: (a' ++ (sep ++ b))) = false := by
      have h00 := H 0 (by simp)
      unfold occursAt at h00
      simp only [List.cons_append, List.append_assoc, List.drop_zero] at h00
      exact Bool.not_eq_true _ ▸ eq_false_of_ne_true h00
    have H' : ∀ i, i < a'.length → ¬ occursAt sep (a' ++ sep ++ b) i := by
      intro i hi
      have := H (i + 1) (by simp only [List.length_cons]; omega)
      unfold occursAt at this ⊢
      simpa [List.cons_append, List.drop_succ_cons] using this
    simp only [List.cons_append]
    rw [pySplit]
    simp only [List.append_assoc] at h0 ⊢
    simp only [h0, Bool.false_eq_true, and_false, dite_false]
    have ih' := ih H'
    simp only [List.append_assoc] at ih'
    rw [ih']

/-- Removing a character that does not occur is the identity. -/
theorem removeChar_id (c : Char) (s : List Char) (h : c ∉ s) :
    pyRemoveChar c s = s := by
  unfold pyRemoveChar
  rw [List.filter_eq_self]
  intro a ha
  simp only [ne_eq, decide_eq_true_eq]
  exact fun he => h (he ▸ ha)

/-- Claim C1: rename path fields resolve to the new-side path only — the
brace form `{old => new}rest` normalizes to `new ++ rest` and the dual
form `old => new` normalizes to `new` (braces stripped first, then the
right-hand side of the arrow is taken). -/
theorem c1_rename_paths :
    (∀ old new rest : List Char,
        '{' ∉ old → '}' ∉ old → '{' ∉ new → '}' ∉ new → '{' ∉ rest → '}' ∉ rest →
        (∀ i, i < old.length → ¬ occursAt arrowSep (old ++ arrowSep ++ (new ++ rest)) i) →
        containsSub arrowSep (new ++ rest) = false →
        resolvePath ('{' :: old ++ arrowSep ++ new ++ '}' :: rest) = new ++ rest) ∧
      (∀ old new : List Char,
        '{' ∉ old → '}' ∉ old → '{' ∉ new → '}' ∉ new →
        (∀ i, i < old.length → ¬ occursAt arrowSep (old ++ arrowSep ++ new) i) →
        containsSub arrowSep new = false →
        resolvePath (old ++ arrowSep ++ new) = new) := by
  constructor
  · intro old new rest ho1 ho2 hn1 hn2 hr1 hr2 H htail
    have hmem1 : '{' ∉ old ++ arrowSep ++ new ++ '}' :: rest := by
      intro hmem
      simp only [List.mem_append, List.mem_cons] at hmem
      rcases hmem with ((h | h) | h) | (h | h)
      · exact ho1 h
      · exact absurd h (by decide)
      · exact hn1 h
      · exact absurd h (by decide)
      · exact hr1 h
    have hmem2 : '}' ∉ old ++ arrowSep ++ new ++ rest := by
      intro hmem
      simp only [List.mem_append] at hmem
      rcases hmem with ((h | h) | h) | h
      · exact ho2 h
      · exact absurd h (by decide)
      · exact hn2 h
      · exact hr2 h
    have hstrip1 : pyRemoveChar '{' ('{' :: old ++ arrowSep ++ new ++ '}' :: rest)
        = old ++ arrowSep ++ new ++ '}' :: rest := by
      rw [List.cons_append]
      show List.filter _ ('{' :: (old ++ arrowSep ++ new ++ '}' :: rest)) = _
      rw [List.filter_cons_of_neg (by simp)]
      exact removeChar_id _ _ hmem1
    have hstrip2 : pyRemoveChar '}' (old ++ arrowSep ++ new ++ '}' :: rest)
        = old ++ arrowSep ++ new ++ rest := by
      unfold pyRemoveChar
      rw [show old ++ arrowSep ++ new ++ '}' :: rest
          = (old ++ arrowSep ++ new) ++ ('}' :: rest) by simp [List.append_assoc]]
      rw [List.filter_append, List.filter_cons_of_neg (by simp)]
      rw [show (old ++ arrowSep ++ new).filter (fun x => x ≠ '}') = old ++ arrowSep ++ new from
        removeChar_id '}' _ (by
          intro hmem
          simp only [List.mem_append] at hmem
          rcases hmem with (h | h) | h
          · exact ho2 h
          · exact absurd h (by decide)
          · exact hn2 h)]
      rw [show (List.filter (fun x => x ≠ '}') rest : List Char) = rest from
        removeChar_id '}' rest hr2]
      try simp [List.append_assoc]
    have hcont1 : containsSub arrowSep ('{' :: old ++ arrowSep ++ new ++ '}' :: rest) = true := by
      have := containsSub_middle arrowSep ('{' :: old) (new ++ '}' :: rest)
      simpa [List.append_assoc] using this
    have hcont2 : containsSub arrowSep (old ++ arrowSep ++ new ++ rest) = true := by
      have := containsSub_middle arrowSep old (new ++ rest)
      simpa [List.append_assoc] using this
    unfold resolvePath
    rw [if_pos hcont1, hstrip1, hstrip2]
    rw [if_pos hcont2]
    have hsplit : pySplit arrowSep (old ++ arrowSep ++ (new ++ rest))
        = old :: pySplit arrowSep (new ++ rest) :=
      pySplit_append arrowSep old (new ++ rest) (by decide) H
    rw [show old ++ arrowSep ++ new ++ rest = old ++ arrowSep ++ (new ++ rest) by
      simp [List.append_assoc]]
    rw [hsplit, pySplit_of_not_contains _ _ htail]
    rfl
  · intro old new ho1 ho2 hn1 hn2 H hnew
    have hmem1 : '{' ∉ old ++ arrowSep ++ new := by
      intro hmem
      simp only [List.mem_append] at hmem
      rcases hmem with (h | h) | h
      · exact ho1 h
      · exact absurd h (by decide)
      · exact hn1 h
    have hmem2 : '}' ∉ old ++ arrowSep ++ new := by
      intro hmem
      simp only [List.mem_append] at hmem
      rcases hmem with (h | h) | h
      · exact ho2 h
      · exact absurd h (by decide)
      · exact hn2 h
    have hcont : containsSub arrowSep (old ++ arrowSep ++ new) = true :=
      containsSub_middle arrowSep old new
    unfold resolvePath
    rw [if_pos hcont, removeChar_id '{' _ hmem1, removeChar_id '}' _ hmem2, if_pos hcont]
    rw [pySplit_append arrowSep old new (by decide) H, pySplit_of_not_contains _ _ hnew]
    rfl

/-- Witness for `c1_rename_paths` on the two spec forms
`{old => new}/file.txt` and `oldfull => newfull`. -/
theorem c1_rename_paths_witness :
    resolvePath ('{' :: "old".toList ++ arrowSep ++ "new".toList ++ '}' :: "/file.txt".toList)
        = "new".toList ++ "/file.txt".toList ∧
      resolvePath ("oldfull".toList ++ arrowSep ++ "newfull".toList) = "newfull".toList :=
  ⟨c1_rename_paths.1 ("old".toList) ("new".toList) ("/file.txt".toList)
      (by decide) (by decide) (by decide) (by decide) (by decide) (by decide)
      (by decide) (by decide),
   c1_rename_paths.2 ("oldfull".toList) ("newfull".toList)
      (by decide) (by decide) (by decide) (by decide) (by decide) (by decide)⟩


/-- Python code-point string comparison is total. -/
theorem strLeb_total : ∀ a b : List Char, strLeb a b = true ∨ strLeb b a = true := by
  intro a
  induction a with
  | nil => intro b; exact Or.inl rfl
  | cons x xs ih =>
    intro b
    cases b with
    | nil => exact Or.inr rfl
    | cons y ys =>
      rcases lt_trichotomy x y with h | h | h
      · left; simp [strLeb, h]
      · subst h
        rcases ih ys with h' | h'
        · left; simp [strLeb, lt_irrefl, h']
        · right; simp [strLeb, lt_irrefl, h']
      · right; simp [strLeb, h]


/-- Python code-point string comparison is transitive. -/
theorem strLeb_trans : ∀ a b c : List Char,
    strLeb a b = true → strLeb b c = true → strLeb a c = true := by
  intro a
  induction a with
  | nil => intro b c _ _; rfl
  | cons x xs ih =>
    intro b c hab hbc
    cases b with
    | nil => simp [strLeb] at hab
    | cons y ys =>
      cases c with
      | nil => simp [strLeb] at hbc
      | cons z zs =>
        simp only [strLeb] at hab hbc ⊢
        by_cases h1 : x < y
        · by_cases h2 : y < z
          · simp [lt_trans h1 h2]
          · rw [if_neg h2] at hbc
            by_cases h3 : y = z
            · subst h3; simp [h1]
            · rw [if_neg h3] at hbc; simp at hbc
        · rw [if_neg h1] at hab
          by_cases h4 : x = y
          · subst h4
            rw [if_pos rfl] at hab
            by_cases h2 : x < z
            · simp [h2]
            · rw [if_neg h2] at hbc
              by_cases h3 : x = z
              · subst h3
                rw [if_pos rfl] at hbc
                rw [if_neg h2, if_pos rfl]
                exact ih ys zs hab hbc
              · rw [if_neg h3] at hbc; simp at hbc
          · rw [if_neg h4] at hab; simp at hab


/-- The `(is_file, name)` sort key order is total. -/
theorem childLe_total (a b : TreeNode) : childLe a b ∨ childLe b a := by
  unfold childLe childLeb
  by_cases h : a.is_file = b.is_file
  · rw [if_pos h, if_pos h.symm]
    exact strLeb_total _ _
  · rw [if_neg h, if_neg (fun hh => h hh.symm)]
    cases ha : a.is_file <;> cases hb : b.is_file <;> simp_all


/-- The `(is_file, name)` sort key order is transitive. -/
theorem childLe_trans (a b c : TreeNode) (hab : childLe a b) (hbc : childLe b c) :
    childLe a c := by
  unfold childLe childLeb at *
  by_cases h1 : a.is_file = b.is_file <;> by_cases h2 : b.is_file = c.is_file
  · rw [if_pos h1] at hab
    rw [if_pos h2] at hbc
    rw [if_pos (h1.trans h2)]
    exact strLeb_trans _ _ _ hab hbc
  · rw [if_neg h2] at hbc
    rw [if_neg (fun hh => h2 (h1.symm.trans hh))]
    exact hbc
  · rw [if_neg h1] at hab
    rw [if_pos h2] at hbc
    rw [if_neg (fun hh => h1 (hh.trans h2.symm))]
    rw [← h2]
    exact hab
  · rw [if_neg h1] at hab
    rw [if_neg h2] at hbc
    exact absurd (hab.trans hbc.symm) h2


/-- The sibling loop emits, for every non-final child, the branch-connector
block and, for the final child, the corner-connector block. -/
theorem collectSorted_concat (init : List TreeNode) (last : TreeNode) (pre : List Char) :
    collectSorted (init ++ [last]) pre
      = (init.map (fun c => childBlock c pre false)).flatten ++ childBlock last pre true := by
  induction init with
  | nil =>
    rw [List.nil_append, collectSorted]
    simp [collectSorted, childBlock]
  | cons c cs ih =>
    rw [List.cons_append, collectSorted]
    have hne : (cs ++ [last]).isEmpty = false := by
      simp [List.isEmpty_eq_false]
    simp only [hne, Bool.false_eq_true, if_false, ih, childBlock]
    simp [List.append_assoc]


/-- Claim C3: at every node the renderer walks the children sorted by the
`(isFile, name)` key (directories before files, each group in ascending
case-sensitive name order, as a permutation of the children), and within
the sorted sibling group every non-last child uses the branch connector
while the last child uses the corner connector. -/
theorem c3_sorted_connectors (node : TreeNode) (pre : List Char) :
    List.Pairwise childLe (sortChildren node.children) ∧
      List.Perm (sortChildren node.children) node.children ∧
      ∀ init last, sortChildren node.children = init ++ [last] →
        collectLines node pre
          = (init.map (fun c => childBlock c pre false)).flatten
            ++ childBlock last pre true := by
  refine ⟨?_, ?_, ?_⟩
  · haveI : IsTotal TreeNode childLe := ⟨childLe_total⟩
    haveI : IsTrans TreeNode childLe := ⟨fun a b c => childLe_trans a b c⟩
    exact List.sorted_insertionSort childLe node.children
  · exact List.perm_insertionSort childLe node.children
  · intro init last h
    simp only [collectLines]
    rw [h]
    exact collectSorted_concat init last pre


/-- Witness for `c3_sorted_connectors` on a two-child node whose sorted
order puts the directory first and the file last. -/
theorem c3_sorted_connectors_witness :
    collectLines c3Node []
      = ([TreeNode.mk ("a".toList) false 0 0 none []].map
          (fun c => childBlock c [] false)).flatten
        ++ childBlock (TreeNode.mk ("b.txt".toList) true 1 2 (some 5) []) [] true :=
  (c3_sorted_connectors c3Node []).2.2
    [TreeNode.mk ("a".toList) false 0 0 none []]
    (TreeNode.mk ("b.txt".toList) true 1 2 (some 5) []) (by rfl)


/-- Replacing the children replaces exactly the children. -/
theorem children_withChildren (t : TreeNode) (cs : List TreeNode) :
    (t.withChildren cs).children = cs := by
  cases t; rfl


/-- Replacing the children leaves every other field untouched. -/
theorem fields_withChildren (t : TreeNode) (cs : List TreeNode) :
    (t.withChildren cs).name = t.name ∧ (t.withChildren cs).is_file = t.is_file ∧
      (t.withChildren cs).insertions = t.insertions ∧
      (t.withChildren cs).deletions = t.deletions ∧ (t.withChildren cs).loc = t.loc := by
  cases t; exact ⟨rfl, rfl, rfl, rfl, rfl⟩


/-- The walk never renames the node it starts from. -/
theorem insertPath_name (t : TreeNode) (parts : List (List Char)) (i d : Int)
    (l : Option Int) : (insertPath t parts i d l).name = t.name := by
  cases parts with
  | nil => rfl
  | cons p ps => cases t; rfl


/-- A dict hit is stored under its own name. -/
theorem findChild_name (cs : List TreeNode) (nm : List Char) (c : TreeNode)
    (h : findChild cs nm = some c) : c.name = nm := by
  induction cs with
  | nil => simp [findChild] at h
  | cons c0 cs ih =>
    by_cases h0 : c0.name = nm
    · rw [findChild, if_pos h0] at h
      cases h
      exact h0
    · rw [findChild, if_neg h0] at h
      exact ih h


/-- Looking up the key just assigned finds the assigned node. -/
theorem findChild_setChild_self (cs : List TreeNode) (nm : List Char) (x : TreeNode)
    (hx : x.name = nm) : findChild (setChild cs nm x) nm = some x := by
  induction cs with
  | nil => simp [setChild, findChild, hx]
  | cons c0 cs ih =>
    by_cases h : c0.name = nm
    · rw [setChild, if_pos h, findChild, if_pos hx]
    · rw [setChild, if_neg h, findChild, if_neg h]
      exact ih


/-- Assigning one key leaves lookups of other keys unchanged. -/
theorem findChild_setChild_ne (cs : List TreeNode) (nm p : List Char) (x : TreeNode)
    (hx : x.name = nm) (hne : p ≠ nm) :
    findChild (setChild cs nm x) p = findChild cs p := by
  induction cs with
  | nil =>
    have hxp : x.name ≠ p := by
      rw [hx]
      exact fun h => hne h.symm
    simp [setChild, findChild, hxp]
  | cons c0 cs ih =>
    by_cases h : c0.name = nm
    · rw [setChild, if_pos h, findChild, if_neg (by rw [hx]; exact fun hh => hne hh.symm),
        findChild, if_neg (by rw [h]; exact fun hh => hne hh.symm)]
    · rw [setChild, if_neg h]
      by_cases hp : c0.name = p
      · rw [findChild, if_pos hp, findChild, if_pos hp]
      · rw [findChild, if_neg hp, findChild, if_neg hp]
        exact ih


/-- Re-assigning the node already stored under a key is a no-op. -/
theorem setChild_found (cs : List TreeNode) (nm : List Char) (c : TreeNode)
    (h : findChild cs nm = some c) : setChild cs nm c = cs := by
  induction cs with
  | nil => simp [findChild] at h
  | cons c0 cs ih =>
    by_cases h0 : c0.name = nm
    · rw [findChild, if_pos h0] at h
      cases h
      rw [setChild, if_pos h0]
    · rw [findChild, if_neg h0] at h
      rw [setChild, if_neg h0, ih h]


/-- Replacing the children by themselves is the identity. -/
theorem withChildren_self (t : TreeNode) : t.withChildren t.children = t := by
  cases t; rfl


/-- The empty chain ends at the node itself. -/
theorem statsAt_nil (t : TreeNode) :
    statsAt t [] = some (t.is_file, t.insertions, t.deletions, t.loc) := rfl


/-- A chain first steps to the named child. -/
theorem statsAt_cons (t : TreeNode) (p : List Char) (ps : List (List Char)) :
    statsAt t (p :: ps)
      = (match findChild t.children p with
         | some ch => statsAt ch ps
         | none => none) := by
  rw [statsAt, nodeAt]
  cases findChild t.children p <;> rfl


/-- After a walk, the full chain of the inserted path exists. -/
theorem nodeAt_insertPath_self (parts : List (List Char)) :
    ∀ (t : TreeNode) (i d : Int) (l : Option Int),
      (nodeAt (insertPath t parts i d l) parts).isSome = true := by
  induction parts with
  | nil => intro t i d l; rfl
  | cons p ps ih =>
    intro t i d l
    rw [insertPath]
    cases hf : findChild t.children p with
    | some ch =>
      simp only [hf]
      have hname : (insertPath ch ps i d l).name = p := by
        rw [insertPath_name]
        exact findChild_name _ _ _ hf
      rw [nodeAt, children_withChildren, findChild_setChild_self _ _ _ hname]
      exact ih _ _ _ _
    | none =>
      simp only [hf]
      have hname : (insertPath (TreeNode.mk p (ps = ([] : List (List Char)))
          (if ps = ([] : List (List Char)) then i else 0)
          (if ps = ([] : List (List Char)) then d else 0)
          (if ps = ([] : List (List Char)) then l else none) []) ps i d l).name = p := by
        rw [insertPath_name]
        rfl
      rw [nodeAt, children_withChildren, findChild_setChild_self _ _ _ hname]
      exact ih _ _ _ _


/-- A walk never changes the flag or stats at the end of an existing
chain: it only ever creates nodes and rebuilds children lists. -/
theorem statsAt_insertPath_pres (parts : List (List Char)) :
    ∀ (t : TreeNode) (q : List (List Char)) (i d : Int) (l : Option Int)
      (v : Bool × Int × Int × Option Int),
      statsAt t parts = some v → statsAt (insertPath t q i d l) parts = some v := by
  induction parts with
  | nil =>
    intro t q i d l v hv
    rw [statsAt_nil] at hv
    cases q with
    | nil => exact hv
    | cons q0 qs =>
      rw [insertPath]
      cases hf : findChild t.children q0 <;>
        simp only [hf] <;>
        rw [statsAt_nil, (fields_withChildren t _).2.1, (fields_withChildren t _).2.2.1,
          (fields_withChildren t _).2.2.2.1, (fields_withChildren t _).2.2.2.2] <;>
        exact hv
  | cons p ps ih =>
    intro t q i d l v hv
    rw [statsAt_cons] at hv
    cases hfp : findChild t.children p with
    | none => rw [hfp] at hv; simp at hv
    | some ch =>
      rw [hfp] at hv
      cases q with
      | nil => rw [insertPath, statsAt_cons, hfp]; exact hv
      | cons q0 qs =>
        rw [insertPath]
        cases hfq : findChild t.children q0 with
        | some ch0 =>
          simp only [hfq]
          by_cases hpq : p = q0
          · subst hpq
            rw [hfp] at hfq
            cases hfq
            have hname : (insertPath ch qs i d l).name = p := by
              rw [insertPath_name]
              exact findChild_name _ _ _ hfp
            rw [statsAt_cons, children_withChildren, findChild_setChild_self _ _ _ hname]
            exact ih ch qs i d l v hv
          · have hname : (insertPath ch0 qs i d l).name = q0 := by
              rw [insertPath_name]
              exact findChild_name _ _ _ hfq
            rw [statsAt_cons, children_withChildren,
              findChild_setChild_ne _ _ _ _ hname hpq, hfp]
            exact hv
        | none =>
          simp only [hfq]
          by_cases hpq : p = q0
          · subst hpq
            rw [hfp] at hfq
            cases hfq
          · have hname : (insertPath (TreeNode.mk q0 (qs = ([] : List (List Char)))
                (if qs = ([] : List (List Char)) then i else 0)
                (if qs = ([] : List (List Char)) then d else 0)
                (if qs = ([] : List (List Char)) then l else none) []) qs i d l).name = q0 := by
              rw [insertPath_name]
              rfl
            rw [statsAt_cons, children_withChildren,
              findChild_setChild_ne _ _ _ _ hname hpq, hfp]
            exact hv


/-- When the full chain already exists the walk changes nothing at all. -/
theorem insertPath_of_isSome (parts : List (List Char)) :
    ∀ (t : TreeNode) (i d : Int) (l : Option Int),
      (nodeAt t parts).isSome = true → insertPath t parts i d l = t := by
  induction parts with
  | nil => intro t i d l _; rfl
  | cons p ps ih =>
    intro t i d l h
    rw [nodeAt] at h
    cases hf : findChild t.children p with
    | none => rw [hf] at h; simp at h
    | some ch =>
      rw [hf] at h
      rw [insertPath]
      simp only [hf]
      rw [ih ch i d l h, setChild_found _ _ _ hf, withChildren_self]


/-- When the chain does not fully exist yet, the walk ends by creating a
file node carrying exactly the inserted stats. -/
theorem statsAt_insertPath_fresh (parts : List (List Char)) :
    ∀ (t : TreeNode) (i d : Int) (l : Option Int), parts ≠ [] →
      (nodeAt t parts).isSome = false →
      statsAt (insertPath t parts i d l) parts = some (true, i, d, l) := by
  induction parts with
  | nil => intro t i d l h _; exact absurd rfl h
  | cons p ps ih =>
    intro t i d l _ hnone
    rw [nodeAt] at hnone
    rw [insertPath]
    cases hf : findChild t.children p with
    | some ch =>
      rw [hf] at hnone
      simp only [hf]
      cases ps with
      | nil => simp [nodeAt] at hnone
      | cons p1 ps1 =>
        have hname : (insertPath ch (p1 :: ps1) i d l).name = p := by
          rw [insertPath_name]
          exact findChild_name _ _ _ hf
        rw [statsAt_cons, children_withChildren, findChild_setChild_self _ _ _ hname]
        exact ih ch i d l (by simp) hnone
    | none =>
      simp only [hf]
      cases ps with
      | nil =>
        have hname : (insertPath (TreeNode.mk p (([] : List (List Char)) = ([] : List (List Char)))
            (if ([] : List (List Char)) = ([] : List (List Char)) then i else 0)
            (if ([] : List (List Char)) = ([] : List (List Char)) then d else 0)
            (if ([] : List (List Char)) = ([] : List (List Char)) then l else none) [])
            [] i d l).name = p := by
          rw [insertPath_name]
          rfl
        rw [statsAt_cons, children_withChildren, findChild_setChild_self _ _ _ hname]
        rfl
      | cons p1 ps1 =>
        have hname : (insertPath (TreeNode.mk p ((p1 :: ps1 : List (List Char)) = ([] : List (List Char)))
            (if (p1 :: ps1 : List (List Char)) = ([] : List (List Char)) then i else 0)
            (if (p1 :: ps1 : List (List Char)) = ([] : List (List Char)) then d else 0)
            (if (p1 :: ps1 : List (List Char)) = ([] : List (List Char)) then l else none) [])
            (p1 :: ps1) i d l).name = p := by
          rw [insertPath_name]
          rfl
        rw [statsAt_cons, children_withChildren, findChild_setChild_self _ _ _ hname]
        apply ih _ i d l (by simp)
        simp [nodeAt, findChild]


/-- A chain existing after a walk either existed before or is an initial
run of the inserted path. -/
theorem nodeAt_insertPath_inv (parts : List (List Char)) :
    ∀ (t : TreeNode) (q : List (List Char)) (i d : Int) (l : Option Int),
      (nodeAt (insertPath t q i d l) parts).isSome = true →
      (nodeAt t parts).isSome = true ∨ chainLeadsB parts q = true := by
  induction parts with
  | nil => intro t q i d l _; left; rfl
  | cons p ps ih =>
    intro t q i d l h
    cases q with
    | nil => left; exact h
    | cons q0 qs =>
      rw [insertPath] at h
      cases hfq : findChild t.children q0 with
      | some ch =>
        simp only [hfq] at h
        by_cases hpq : p = q0
        · subst hpq
          have hname : (insertPath ch qs i d l).name = p := by
            rw [insertPath_name]
            exact findChild_name _ _ _ hfq
          rw [nodeAt, children_withChildren, findChild_setChild_self _ _ _ hname] at h
          rcases ih ch qs i d l h with h' | h'
          · left
            rw [nodeAt, hfq]
            exact h'
          · right
            simp [chainLeadsB, h']
        · have hname : (insertPath ch qs i d l).name = q0 := by
            rw [insertPath_name]
            exact findChild_name _ _ _ hfq
          rw [nodeAt, children_withChildren, findChild_setChild_ne _ _ _ _ hname hpq] at h
          left
          rw [nodeAt]
          exact h
      | none =>
        simp only [hfq] at h
        by_cases hpq : p = q0
        · subst hpq
          have hname : (insertPath (TreeNode.mk p (qs = ([] : List (List Char)))
              (if qs = ([] : List (List Char)) then i else 0)
              (if qs = ([] : List (List Char)) then d else 0)
              (if qs = ([] : List (List Char)) then l else none) []) qs i d l).name = p := by
            rw [insertPath_name]
            rfl
          rw [nodeAt, children_withChildren, findChild_setChild_self _ _ _ hname] at h
          rcases ih _ qs i d l h with h' | h'
          · cases ps with
            | nil =>
              right
              simp [chainLeadsB]
            | cons p1 ps1 =>
              rw [nodeAt] at h'
              simp [findChild] at h'
          · right
            simp [chainLeadsB, h']
        · have hname : (insertPath (TreeNode.mk q0 (qs = ([] : List (List Char)))
              (if qs = ([] : List (List Char)) then i else 0)
              (if qs = ([] : List (List Char)) then d else 0)
              (if qs = ([] : List (List Char)) then l else none) []) qs i d l).name = q0 := by
            rw [insertPath_name]
            rfl
          rw [nodeAt, children_withChildren, findChild_setChild_ne _ _ _ _ hname hpq] at h
          left
          rw [nodeAt]
          exact h


/-- A walk preserves existing chains. -/
theorem nodeAt_insertPath_isSome (t : TreeNode) (parts q : List (List Char))
    (i d : Int) (l : Option Int) (h : (nodeAt t parts).isSome = true) :
    (nodeAt (insertPath t q i d l) parts).isSome = true := by
  cases hn : nodeAt t parts with
  | none => rw [hn] at h; simp at h
  | some n =>
    have hs : statsAt t parts = some (n.is_file, n.insertions, n.deletions, n.loc) := by
      rw [statsAt, hn]
      rfl
    have h2 := statsAt_insertPath_pres parts t q i d l _ hs
    rw [statsAt] at h2
    cases hm : nodeAt (insertPath t q i d l) parts with
    | none => rw [hm] at h2; simp at h2
    | some m => rfl


/-- The build loop preserves the flag and stats at existing chains. -/
theorem statsAt_foldl_pres (l2 : List FileChange) :
    ∀ (t : TreeNode) (parts : List (List Char)) (v : Bool × Int × Int × Option Int),
      statsAt t parts = some v → statsAt (List.foldl buildStep t l2) parts = some v := by
  induction l2 with
  | nil => intro t parts v hv; exact hv
  | cons c1 ls ih =>
    intro t parts v hv
    rw [List.foldl_cons]
    exact ih _ _ _ (statsAt_insertPath_pres parts t _ _ _ _ v hv)


/-- After the build loop, the chain of every processed path exists. -/
theorem foldl_chain (l1 : List FileChange) :
    ∀ (t : TreeNode) (parts : List (List Char)),
      ((nodeAt t parts).isSome = true ∨ ∃ c1 ∈ l1, pySplitChar '/' c1.path = parts) →
      (nodeAt (List.foldl buildStep t l1) parts).isSome = true := by
  induction l1 with
  | nil =>
    intro t parts h
    rcases h with h | ⟨c1, hc1, _⟩
    · exact h
    · simp at hc1
  | cons c1 ls ih =>
    intro t parts h
    rw [List.foldl_cons]
    apply ih
    rcases h with h | ⟨c2, hc2, hp⟩
    · left
      exact nodeAt_insertPath_isSome _ _ _ _ _ _ h
    · rcases List.mem_cons.mp hc2 with rfl | hmem
      · left
        rw [← hp]
        exact nodeAt_insertPath_self _ _ _ _ _
      · right
        exact ⟨c2, hmem, hp⟩


/-- A chain that no processed path starts with never comes to exist. -/
theorem foldl_no_chain (l1 : List FileChange) :
    ∀ (t : TreeNode) (parts : List (List Char)),
      (nodeAt t parts).isSome = false →
      (∀ c1 ∈ l1, chainLeadsB parts (pySplitChar '/' c1.path) = false) →
      (nodeAt (List.foldl buildStep t l1) parts).isSome = false := by
  induction l1 with
  | nil => intro t parts h _; exact h
  | cons c1 ls ih =>
    intro t parts h hall
    rw [List.foldl_cons]
    apply ih
    · cases hs : (nodeAt (buildStep t c1) parts).isSome
      · rfl
      · rcases nodeAt_insertPath_inv parts t _ _ _ _ hs with h' | h'
        · simp [h] at h'
        · have hfalse := hall c1 (List.mem_cons_self _ _)
          simp [hfalse] at h'
    · intro c2 hc2
      exact hall c2 (List.mem_cons_of_mem _ hc2)


/-- Splitting always yields at least one segment. -/
theorem pySplitChar_ne_nil (c : Char) (s : List Char) : pySplitChar c s ≠ [] := by
  cases s with
  | nil => simp [pySplitChar]
  | cons x xs =>
    by_cases hx : x = c
    · simp [pySplitChar, hx]
    · cases h : pySplitChar c xs <;> simp [pySplitChar, hx, h]

/-- Claim C10 (amended): a record whose path was already inserted by an
earlier record changes nothing (later duplicates are ignored entirely);
and the first record with a given path yields a file leaf carrying its
stats, provided no earlier record's path already created that node (that
is, no earlier record's segment chain extends the record's own chain). -/
theorem c10_first_record_wins :
    (∀ (l1 : List FileChange) (c : FileChange) (l2 : List FileChange),
        (∃ c1 ∈ l1, c1.path = c.path) →
        build_tree (l1 ++ c :: l2) = build_tree (l1 ++ l2)) ∧
      (∀ (l1 : List FileChange) (c : FileChange) (l2 : List FileChange),
        (∀ c1 ∈ l1, chainLeadsB (pySplitChar '/' c.path) (pySplitChar '/' c1.path) = false) →
        statsAt (build_tree (l1 ++ c :: l2)) (pySplitChar '/' c.path)
          = some (true, c.insertions, c.deletions, c.loc)) := by
  constructor
  · rintro l1 c l2 ⟨c1, hc1, hpath⟩
    unfold build_tree
    rw [List.foldl_append, List.foldl_append, List.foldl_cons]
    have hchain : (nodeAt (List.foldl buildStep (TreeNode.mk ".".toList false 0 0 none []) l1)
        (pySplitChar '/' c.path)).isSome = true := by
      apply foldl_chain
      right
      exact ⟨c1, hc1, by rw [hpath]⟩
    have hstep : buildStep (List.foldl buildStep (TreeNode.mk ".".toList false 0 0 none []) l1) c
        = List.foldl buildStep (TreeNode.mk ".".toList false 0 0 none []) l1 :=
      insertPath_of_isSome _ _ _ _ _ hchain
    rw [hstep]
  · intro l1 c l2 hall
    unfold build_tree
    rw [List.foldl_append, List.foldl_cons]
    have hroot : (nodeAt (TreeNode.mk ".".toList false 0 0 none [])
        (pySplitChar '/' c.path)).isSome = false := by
      cases hsp : pySplitChar '/' c.path with
      | nil => exact absurd hsp (pySplitChar_ne_nil _ _)
      | cons p ps => simp [nodeAt, findChild]
    have hfresh := foldl_no_chain l1 _ _ hroot hall
    have hstep : statsAt (buildStep (List.foldl buildStep
          (TreeNode.mk ".".toList false 0 0 none []) l1) c) (pySplitChar '/' c.path)
        = some (true, c.insertions, c.deletions, c.loc) :=
      statsAt_insertPath_fresh _ _ _ _ _ (pySplitChar_ne_nil _ _) hfresh
    exact statsAt_foldl_pres l2 _ _ _ hstep


/-- Claim C10 counterexample: in `c10ex` the records at indices 1 and 2
share the path `a/b`, but the node at that path is a directory with
zeroed stats — created by the earlier record `a/b/c` — not a leaf
carrying the first such record's `(5, 2, some 9)`. -/
theorem c10_counterexample :
    c10ex.getD 1 (FileChange.mk [] 0 0 none) = FileChange.mk ("a/b".toList) 5 2 (some 9) ∧
      c10ex.getD 2 (FileChange.mk [] 0 0 none) = FileChange.mk ("a/b".toList) 7 7 none ∧
      statsAt (build_tree c10ex) (pySplitChar '/' ("a/b".toList)) = some (false, 0, 0, none) ∧
      statsAt (build_tree c10ex) (pySplitChar '/' ("a/b".toList)) ≠ some (true, 5, 2, some 9) := by
  decide


/-- Witness for `c10_first_record_wins` on duplicate `a/b` records. -/
theorem c10_first_record_wins_witness :
    build_tree ([FileChange.mk ("a/b".toList) 5 2 (some 9)]
          ++ FileChange.mk ("a/b".toList) 7 7 none :: [])
        = build_tree ([FileChange.mk ("a/b".toList) 5 2 (some 9)] ++ []) ∧
      statsAt (build_tree (([] : List FileChange)
            ++ FileChange.mk ("a/b".toList) 5 2 (some 9)
              :: [FileChange.mk ("a/b".toList) 7 7 none]))
          (pySplitChar '/' ("a/b".toList))
        = some (true, 5, 2, some 9) :=
  ⟨c10_first_record_wins.1 [FileChange.mk ("a/b".toList) 5 2 (some 9)]
      (FileChange.mk ("a/b".toList) 7 7 none) []
      ⟨FileChange.mk ("a/b".toList) 5 2 (some 9), by decide, by decide⟩,
   c10_first_record_wins.2 [] (FileChange.mk ("a/b".toList) 5 2 (some 9))
      [FileChange.mk ("a/b".toList) 7 7 none] (by decide)⟩
